import Mathlib

/-!
Verification development for the wayback-rpki temporal ROA index
(`src/roas_trie.rs`).  The Rust data structures and operations are
shallowly embedded: `HashSet<i64>` becomes a duplicate-free `List Int` with
deduplicating insertion, `VecDeque<(i64,i64)>`
becomes `List (Int × Int)` (with `push_back` as append at the end), the
`IpnetTrie` becomes an association list keyed by the network's bit string,
and machine timestamps become `Int` (no overflow is possible for the values
involved).  Fallible or panicking code paths return `Option`.
-/

namespace WaybackRpki

/-- An IP network (v4 or v6), represented by its list of network bits.
The bit-list length is the network's length (`prefix_len` in the source). -/
structure IpNet where
  bits : List Bool
deriving DecidableEq

/-- `coversBits a b` : `a` is an initial segment of `b`, i.e. the network with
bits `a` is equal to or a supernet of the network with bits `b`.  This models
which stored prefixes the ipnet-trie `matches` iterator yields for a query. -/
def coversBits : List Bool → List Bool → Bool
  | [], _ => true
  | _ :: _, [] => false
  | a :: as, b :: bs => (a == b) && coversBits as bs

/-- `covers a b` : network `a` is equal to or a supernet of network `b`. -/
def covers (a b : IpNet) : Bool := coversBits a.bits b.bits

/-- Embedding of `RoasTrieEntry` (src/roas_trie.rs, lines 46-56):
`dates` is the uncompressed `HashSet<i64>` of day timestamps, modelled as a
duplicate-free list built by deduplicating insertion (iteration order is
immaterial: the only consumers sort or fold commutatively), and
`dates_compressed` the `VecDeque<(i64,i64)>` of closed date ranges, with
`push_back` appending at the end. -/
structure RoasTrieEntry where
  max_len : Nat
  origin : Nat
  dates : List Int
  dates_compressed : List (Int × Int)
deriving DecidableEq

/-- `HashSet::insert`: add the element unless already present. -/
def hsInsert (l : List Int) (d : Int) : List Int :=
  if d ∈ l then l else l ++ [d]

/-- `HashSet::extend`: insert every element of `ds`. -/
def hsExtend (l : List Int) (ds : List Int) : List Int :=
  ds.foldl hsInsert l

/-- Embedding of `RoasTrieEntry::new` (lines 91-107). -/
def RoasTrieEntry.new (date_ts : Int) (max_len origin : Nat) (bootstrap : Bool) :
    RoasTrieEntry :=
  match bootstrap with
  | true => { max_len := max_len, origin := origin, dates := [date_ts], dates_compressed := [] }
  | false => { max_len := max_len, origin := origin, dates := [],
               dates_compressed := [(date_ts, date_ts)] }

/-- `n` day timestamps `s, s+86400, ...` (the unrolled day-stepping loop). -/
def dayListGo : Nat → Int → List Int
  | 0, _ => []
  | n + 1, s => s :: dayListGo n (s + 86400)

/-- Number of iterations of the `while date <= end` day loop started at `s`. -/
def dayCount (s e : Int) : Nat :=
  if s ≤ e then (e - s).toNat / 86400 + 1 else 0

/-- The list of day timestamps `start, start+86400, ..., ≤ end`, mirroring the
`while date <= *end` loops in `full_compress` (lines 115-121) and `fill_gaps`
(lines 244-249). -/
def dayList (s e : Int) : List Int :=
  dayListGo (dayCount s e) s

/-- The compression loop of `full_compress` (lines 130-139): `s` and `e` are the
mutable `start`/`end` of the run being built, the list argument is the remainder
of the sorted day vector. -/
def compressGo (s e : Int) : List Int → List (Int × Int)
  | [] => [(s, e)]
  | d :: rest =>
      if d = e + 86400 then compressGo s d rest
      else (s, e) :: compressGo d d rest

/-- The `dates_compressed` ranges exploded into individual days (the loop at
lines 115-121). -/
def explode (runs : List (Int × Int)) : List Int :=
  runs.flatMap (fun r => dayList r.1 r.2)

/-- The combined and sorted day vector built by `full_compress` (lines
111-124): the loose dates, then every day of every compressed range, sorted
ascending. -/
def sortedDays (x : RoasTrieEntry) : List Int :=
  List.insertionSort (· ≤ ·) (x.dates ++ explode x.dates_compressed)

/-- Embedding of `RoasTrieEntry::full_compress` (lines 110-145): collect the
loose dates and every day of every compressed range, sort, and re-compress.
The Rust indexes `dates[0]` unconditionally, which panics when the combined
day vector is empty; that path is `none`. -/
def full_compress (x : RoasTrieEntry) : Option RoasTrieEntry :=
  match sortedDays x with
  | [] => none
  | d :: rest =>
      some { x with dates := [], dates_compressed := compressGo d d rest }

/-- Embedding of `RoasTrieEntry::push_date` (lines 148-174).  In bootstrap
mode the date is inserted into the hash set; otherwise the tail run is
extended (`date_ts = end + 86400`), a fresh run appended (`date_ts > end +
86400`), or the date ignored. -/
def push_date (x : RoasTrieEntry) (date_ts : Int) (bootstrap : Bool) : RoasTrieEntry :=
  match bootstrap with
  | true => { x with dates := hsInsert x.dates date_ts }
  | false =>
      match x.dates_compressed.getLast? with
      | none => { x with dates_compressed := x.dates_compressed ++ [(date_ts, date_ts)] }
      | some (s, e) =>
          if date_ts = e + 86400 then
            { x with dates_compressed := x.dates_compressed.dropLast ++ [(s, date_ts)] }
          else if e + 86400 < date_ts then
            { x with dates_compressed := x.dates_compressed ++ [(date_ts, date_ts)] }
          else x

/-- Embedding of `RoasTrieEntry::contains_date` (lines 176-182). -/
def contains_date (x : RoasTrieEntry) (date_ts : Int) : Bool :=
  decide (date_ts ∈ x.dates) ||
    x.dates_compressed.any (fun r => decide (r.1 ≤ date_ts) && decide (date_ts ≤ r.2))

/-- Embedding of `RpkiValidation` (lines 185-190). -/
inductive RpkiValidation where
  | Valid
  | Invalid
  | Unknown
deriving DecidableEq

/-- The per-prefix tuple map `HashMap<(u8, u32), RoasTrieEntry>` as an
association list. -/
abbrev EntryMap := List ((Nat × Nat) × RoasTrieEntry)

/-- Embedding of `RoasTrieEntry::convert_to_hash_map` (lines 192-196). -/
def convert_to_hash_map (x : RoasTrieEntry) : EntryMap :=
  [((x.max_len, x.origin), x)]

/-- Embedding of `RoasTrie` (lines 40-44): the trie as an association list
from networks to tuple maps, plus the global `latest_date`. -/
structure RoasTrie where
  trie : List (IpNet × EntryMap)
  latest_date : Int
deriving DecidableEq

/-- The stored prefixes equal to or supernets of `p`, as yielded by
`self.trie.matches(prefix)`. -/
def matchesList (t : List (IpNet × EntryMap)) (p : IpNet) : List (IpNet × EntryMap) :=
  t.filter (fun qm => covers qm.1 p)

/-- The `'outer` loop of `RoasTrie::validate` (lines 354-366): `acc` is the
running `is_valid` value, the list holds the tuple maps of the matched
prefixes in iteration order. -/
def validateLoop (origin : Nat) (plen : Nat) (d : Int) (acc : RpkiValidation) :
    List EntryMap → RpkiValidation
  | [] => acc
  | m :: rest =>
      if m.any (fun kv => kv.2.origin == origin && plen ≤ kv.2.max_len && contains_date kv.2 d)
      then RpkiValidation.Valid
      else validateLoop origin plen d RpkiValidation.Invalid rest

/-- Embedding of `RoasTrie::validate` (lines 353-369). -/
def RoasTrie.validate (t : RoasTrie) (p : IpNet) (origin : Nat) (d : Int) : RpkiValidation :=
  validateLoop origin p.bits.length d RpkiValidation.Unknown
    ((matchesList t.trie p).map (fun qm => qm.2))

/-- The hard-coded `KNOWN_GAPS_STR` table (src/roas_trie.rs, lines 12-38),
transcribed entry for entry in source order. -/
def KNOWN_GAPS_STR : List (String × String) :=
  [ ("2018-12-28", "2019-01-02"),
    ("2019-10-22", "2019-10-22"),
    ("2019-11-24", "2019-11-24"),
    ("2020-08-03", "2020-08-03"),
    ("2021-01-04", "2021-01-04"),
    ("2021-07-15", "2021-07-15"),
    ("2021-07-19", "2021-07-19"),
    ("2021-07-23", "2021-07-23"),
    ("2021-07-31", "2021-07-31"),
    ("2021-08-10", "2021-08-10"),
    ("2021-09-03", "2021-09-03"),
    ("2021-09-06", "2021-09-07"),
    ("2021-09-10", "2021-09-25"),
    ("2021-09-27", "2021-09-28"),
    ("2022-01-03", "2022-01-03"),
    ("2022-01-15", "2022-01-15"),
    ("2022-01-19", "2022-01-19"),
    ("2022-01-24", "2022-01-24"),
    ("2022-02-02", "2022-02-02"),
    ("2022-02-04", "2022-02-04"),
    ("2022-02-13", "2022-02-13"),
    ("2022-02-16", "2022-02-16"),
    ("2023-06-24", "2023-06-24"),
    ("2023-07-14", "2023-07-17"),
    ("2023-06-24", "2023-06-24") ]

/-- Days from the epoch 1970-01-01 of a proleptic Gregorian calendar date,
the arithmetic used by chrono's `NaiveDate` to produce UTC timestamps. -/
def daysFromCivil (y m d : Int) : Int :=
  let y' := y - (if m ≤ 2 then 1 else 0)
  let era := y'.ediv 400
  let yoe := y' - era * 400
  let mp := (m + 9) % 12
  let doy := (153 * mp + 2).ediv 5 + d - 1
  let doe := yoe * 365 + yoe.ediv 4 - yoe.ediv 100 + doy
  era * 146097 + doe - 719468

/-- Numeric value of a list of decimal digit characters. -/
def natOfDigits (l : List Char) : Nat :=
  l.foldl (fun a c => a * 10 + (c.toNat - 48)) 0

/-- Midnight-UTC timestamp of a `"YYYY-MM-DD"` string, modelling
`NaiveDate::parse_from_str(s, "%Y-%m-%d").and_hms_opt(0,0,0).and_utc().timestamp()`
as used by `fill_gaps` (lines 230-241). -/
def dateStrToTs (s : String) : Int :=
  let cs := s.toList
  86400 * daysFromCivil (natOfDigits (cs.take 4)) (natOfDigits ((cs.drop 5).take 2))
      (natOfDigits ((cs.drop 8).take 2))

/-- The inner adjacent-runs scan of `fill_gaps` (lines 254-262): does some pair
of consecutive runs `(i, i+1)` end exactly one day before `gap_start` and begin
exactly one day after `gap_end`? -/
def straddlesGap (runs : List (Int × Int)) (gs ge : Int) : Bool :=
  (runs.zip runs.tail).any (fun rr => rr.1.2 == gs - 86400 && rr.2.1 == ge + 86400)

/-- The per-entry body of `fill_gaps` for one gap interval (lines 252-265).
The Rust loop `for i in 0..entry.dates_compressed.len() - 1` panics when the
run list is empty (unsigned underflow / out-of-bounds index); that path is
`none`.  When a straddling pair exists every day of the gap is added to the
loose set (`HashSet::extend`, idempotent across repeated triggers) and the
entry is fully recompressed. -/
def fillGapEntry (gs ge : Int) (x : RoasTrieEntry) : Option RoasTrieEntry :=
  if x.dates_compressed.isEmpty then none
  else if straddlesGap x.dates_compressed gs ge then
    full_compress { x with dates := hsExtend x.dates (dayList gs ge) }
  else some x

/-- One gap interval applied to every entry of the trie (lines 251-267). -/
def fillGapsOnce (gs ge : Int) : List (IpNet × EntryMap) → Option (List (IpNet × EntryMap))
  | [] => some []
  | qm :: rest =>
      match goMap qm.2, fillGapsOnce gs ge rest with
      | some m, some r => some ((qm.1, m) :: r)
      | _, _ => none
where
  goMap : EntryMap → Option EntryMap
    | [] => some []
    | kv :: rest =>
        match fillGapEntry gs ge kv.2, goMap rest with
        | some e, some r => some ((kv.1, e) :: r)
        | _, _ => none

/-- Folding a list of gap intervals over the trie. -/
def applyGaps : List (Int × Int) → List (IpNet × EntryMap) → Option (List (IpNet × EntryMap))
  | [], t => some t
  | g :: gs, t =>
      match fillGapsOnce g.1 g.2 t with
      | none => none
      | some t' => applyGaps gs t'

/-- Embedding of `RoasTrie::fill_gaps` (lines 225-270): every interval of the
known-gaps table, parsed to timestamps, applied to every entry. -/
def RoasTrie.fill_gaps (t : RoasTrie) : Option RoasTrie :=
  (applyGaps (KNOWN_GAPS_STR.map (fun g => (dateStrToTs g.1, dateStrToTs g.2))) t.trie).map
    (fun tr => { t with trie := tr })

/-- Embedding of `RoaEntry` (src/lib.rs) as consumed by `process_entries`:
the network, `max_len`, origin ASN, and the snapshot's calendar date (as a
day number; `process_entries` converts it to a midnight-UTC timestamp). -/
structure RoaEntry where
  net : IpNet
  max_len : Nat
  asn : Nat
  date : Int
deriving DecidableEq

/-- `HashMap::entry(k).and_modify(f).or_insert_with(mk)` on the tuple map. -/
def updateEntryMap (k : Nat × Nat) (f : RoasTrieEntry → RoasTrieEntry)
    (mk : RoasTrieEntry) : EntryMap → EntryMap
  | [] => [(k, mk)]
  | kv :: rest =>
      if kv.1 = k then (kv.1, f kv.2) :: rest else kv :: updateEntryMap k f mk rest

/-- The `exact_match_mut` / `insert` branch of `process_entries` (lines
316-329) on the association-list trie. -/
def updateTrie (p : IpNet) (f : EntryMap → EntryMap) (mk : EntryMap) :
    List (IpNet × EntryMap) → List (IpNet × EntryMap)
  | [] => [(p, mk)]
  | qm :: rest =>
      if qm.1 = p then (qm.1, f qm.2) :: rest else qm :: updateTrie p f mk rest

/-- One iteration of the `process_entries` loop (lines 305-335). -/
def processEntry (t : RoasTrie) (r : RoaEntry) (bootstrap : Bool) : RoasTrie :=
  let date_ts := 86400 * r.date
  let k := (r.max_len, r.asn)
  let trie' := updateTrie r.net
    (fun m => updateEntryMap k (fun e => push_date e date_ts bootstrap)
      (RoasTrieEntry.new date_ts r.max_len r.asn bootstrap) m)
    (convert_to_hash_map (RoasTrieEntry.new date_ts r.max_len r.asn bootstrap)) t.trie
  { trie := trie',
    latest_date := if t.latest_date < date_ts then date_ts else t.latest_date }

/-- Embedding of `RoasTrie::process_entries` (lines 305-335). -/
def process_entries (t : RoasTrie) (entries : List RoaEntry) (bootstrap : Bool) : RoasTrie :=
  entries.foldl (fun acc r => processEntry acc r bootstrap) t

/-- Embedding of `RoasLookupEntry` (lines 58-64); calendar dates are kept as
day numbers (`timestamp.ediv 86400`, the day of `DateTime::from_timestamp`). -/
structure RoasLookupEntry where
  net : IpNet
  origin : Nat
  max_len : Nat
  dates_ranges : List (Int × Int)
deriving DecidableEq

/-- Conversion of one trie entry to a lookup entry (lines 469-489). -/
def mkLookup (q : IpNet) (e : RoasTrieEntry) : RoasLookupEntry :=
  { net := q, origin := e.origin, max_len := e.max_len,
    dates_ranges := e.dates_compressed.map (fun r => (r.1.ediv 86400, r.2.ediv 86400)) }

/-- The candidate iterator of `search` (lines 412-415). -/
def searchIter (t : RoasTrie) (net? : Option IpNet) : List (IpNet × EntryMap) :=
  match net? with
  | some p => matchesList t.trie p
  | none => t.trie

/-- The filtering loop of `search` (lines 434-493), after the `current`/`date`
arguments have been resolved into the effective `only_expired` flag and
timestamp filter `dateTs`. -/
def searchCore (t : RoasTrie) (net? : Option IpNet) (origin? : Option Nat)
    (maxLen? : Option Nat) (only_expired : Bool) (dateTs : Option Int) :
    List RoasLookupEntry :=
  (searchIter t net?).flatMap (fun qm =>
    qm.2.filterMap (fun kv =>
      if (match origin? with | some o => kv.2.origin == o | none => true)
          && (match maxLen? with | some m => kv.2.max_len == m | none => true)
          && (match dateTs with
              | some dt =>
                  !(kv.2.dates_compressed.all (fun r => decide (dt < r.1) || decide (r.2 < dt)))
              | none => true)
          && !(only_expired
                && kv.2.dates_compressed.any (fun r => decide (t.latest_date ≤ r.2)))
      then some (mkLookup qm.1 kv.2) else none))

/-- Embedding of `RoasTrie::search` (lines 401-493).  The `date` argument is
the queried calendar date as a day number (the code converts a `NaiveDate` to
its midnight-UTC timestamp, here `86400 * d`); `current = Some(true)` turns
into `dateTs = latest_date`, `current = Some(false)` into the `only_expired`
scan with the date filter disabled (lines 417-432). -/
def RoasTrie.search (t : RoasTrie) (net? : Option IpNet) (origin? : Option Nat)
    (maxLen? : Option Nat) (date? : Option Int) (current? : Option Bool) :
    List RoasLookupEntry :=
  match current? with
  | some true => searchCore t net? origin? maxLen? false (some t.latest_date)
  | some false => searchCore t net? origin? maxLen? true none
  | none => searchCore t net? origin? maxLen? false (date?.map (fun d => 86400 * d))

/-- Filesystem operations visible in `RoasTrie::dump` and in an atomic
write-temp-then-rename discipline. -/
inductive FsOp where
  | openWriter (path : String)
  | writeTrie (t : List (IpNet × EntryMap))
  | rename (src dst : String)
deriving DecidableEq

/-- Trace of filesystem operations performed by `RoasTrie::dump` (lines
292-297): it opens a writer directly on the target path (`oneio::get_writer`,
which gzip-compresses based on the path extension) and streams the trie's
binary export into it.  No other operation is performed. -/
def dumpTrace (t : RoasTrie) (path : String) : List FsOp :=
  [FsOp.openWriter path, FsOp.writeTrie t.trie]

/-- A trace writes the target atomically via write-temp-then-rename: all
writing goes to a distinct temporary path which is then renamed onto the
target, and the target itself is never opened for writing directly. -/
def atomicTempRename (tr : List FsOp) (target : String) : Prop :=
  ∃ tmp, tmp ≠ target ∧ FsOp.openWriter tmp ∈ tr ∧ FsOp.rename tmp target ∈ tr ∧
    FsOp.openWriter target ∉ tr

/-! ### Day-list lemmas -/

theorem mem_dayListGo {n : Nat} {s x : Int} :
    x ∈ dayListGo n s ↔ ∃ k < n, x = s + 86400 * (k : Int) := by
  induction n generalizing s with
  | zero => simp [dayListGo]
  | succ n ih =>
      simp only [dayListGo, List.mem_cons, ih]
      constructor
      · rintro (rfl | ⟨k, hk, rfl⟩)
        · exact ⟨0, by omega, by push_cast; ring⟩
        · exact ⟨k + 1, by omega, by push_cast; ring⟩
      · rintro ⟨k, hk, rfl⟩
        match k with
        | 0 => exact Or.inl (by push_cast; ring)
        | k + 1 => exact Or.inr ⟨k, by omega, by push_cast; ring⟩

theorem mem_dayList {s e x : Int} :
    x ∈ dayList s e ↔ s ≤ x ∧ x ≤ e ∧ (86400 : Int) ∣ x - s := by
  rw [dayList, mem_dayListGo]
  unfold dayCount
  constructor
  · rintro ⟨k, hk, rfl⟩
    split at hk
    · refine ⟨by omega, ?_, ⟨(k : Int), by ring⟩⟩
      omega
    · omega
  · rintro ⟨h1, h2, c, hc⟩
    refine ⟨c.toNat, ?_, by omega⟩
    split
    · omega
    · omega

theorem dayListGo_append (m n : Nat) (s : Int) :
    dayListGo (m + n) s = dayListGo m s ++ dayListGo n (s + 86400 * (m : Int)) := by
  induction m generalizing s with
  | zero => simp [dayListGo]
  | succ m ih =>
      have h1 : m + 1 + n = (m + n) + 1 := by omega
      have h2 : s + 86400 * ((m : Int) + 1) = (s + 86400) + 86400 * (m : Int) := by ring
      rw [h1]
      simp only [dayListGo, ih (s + 86400), List.cons_append, Nat.cast_add, Nat.cast_one, h2]

theorem dayList_split {s n e : Int} (hs : s ≤ n) (hd : (86400 : Int) ∣ n - s)
    (he : n ≤ e + 86400) :
    dayList s e = dayList s (n - 86400) ++ dayList n e := by
  obtain ⟨c, hc⟩ := hd
  have hcount : dayCount s e = dayCount s (n - 86400) + dayCount n e := by
    unfold dayCount
    split_ifs <;> omega
  have hoff : n = s + 86400 * ((dayCount s (n - 86400) : Nat) : Int) := by
    unfold dayCount
    split_ifs <;> omega
  rw [dayList, hcount, dayListGo_append, ← hoff, dayList, dayList]

theorem dayListGo_sorted (n : Nat) (s : Int) : List.Sorted (· < ·) (dayListGo n s) := by
  induction n generalizing s with
  | zero => exact List.sorted_nil
  | succ n ih =>
      refine List.sorted_cons.2 ⟨?_, ih (s + 86400)⟩
      intro b hb
      rw [mem_dayListGo] at hb
      obtain ⟨k, _, rfl⟩ := hb
      omega

theorem dayList_sorted (s e : Int) : List.Sorted (· < ·) (dayList s e) :=
  dayListGo_sorted _ _

theorem dayList_ne_nil {s e : Int} (h : s ≤ e) : dayList s e ≠ [] := by
  rw [dayList, dayCount, if_pos h]
  simp [dayListGo]

theorem dayList_eq_cons {s e : Int} (h : s ≤ e) :
    dayList s e = s :: dayList (s + 86400) e := by
  have h86 : (86400 : Int) ∣ s + 86400 - s := ⟨1, by omega⟩
  have := @dayList_split s (s + 86400) e (by omega) h86 (by omega)
  rw [this]
  have h1 : dayList s (s + 86400 - 86400) = [s] := by
    rw [dayList, dayCount]
    have hle : s ≤ s + 86400 - 86400 := by omega
    rw [if_pos hle]
    have hz : (s + 86400 - 86400 - s).toNat / 86400 = 0 := by omega
    rw [hz]
    rfl
  rw [h1]
  rfl

/-! ### Compression lemmas -/

/-- The runs emitted by `compressGo` begin with the run start `s`, with an end
no smaller than `e`. -/
theorem compressGo_shape (l : List Int) (s e : Int) :
    ∃ t rest, compressGo s e l = (s, t) :: rest ∧ e ≤ t := by
  induction l generalizing s e with
  | nil => exact ⟨e, [], rfl, le_refl e⟩
  | cons d l ih =>
      rw [compressGo]
      split
      · obtain ⟨t, rest, heq, ht⟩ := ih s d
        exact ⟨t, rest, heq, by omega⟩
      · exact ⟨e, compressGo d d l, rfl, le_refl e⟩

/-- Span of the runs produced by `compressGo` on a non-decreasing day list all
of whose elements are day multiples: a day-multiple timestamp is covered iff
it lies in the open run `[s, e]` or occurs in the remaining list. -/
theorem compressGo_span (l : List Int) (s e d : Int)
    (hchain : List.Chain (· ≤ ·) e l)
    (hml : ∀ x ∈ l, (86400 : Int) ∣ x) (hme : (86400 : Int) ∣ e)
    (hmd : (86400 : Int) ∣ d) (hse : s ≤ e) :
    (∃ r ∈ compressGo s e l, r.1 ≤ d ∧ d ≤ r.2) ↔ (s ≤ d ∧ d ≤ e) ∨ d ∈ l := by
  induction l generalizing s e with
  | nil => simp [compressGo]
  | cons x l ih =>
      rw [List.chain_cons] at hchain
      obtain ⟨hex, hchain⟩ := hchain
      have hmx : (86400 : Int) ∣ x := hml x (List.mem_cons_self x l)
      have hml' : ∀ y ∈ l, (86400 : Int) ∣ y := fun y hy => hml y (List.mem_cons_of_mem x hy)
      rw [compressGo]
      split
      · rename_i hx
        rw [ih s x hchain hml' hmx (by omega)]
        subst hx
        constructor
        · rintro (⟨h1, h2⟩ | h)
          · rcases eq_or_lt_of_le h2 with rfl | h2
            · exact Or.inr (List.mem_cons_self _ _)
            · have : d ≤ e := by omega
              exact Or.inl ⟨h1, this⟩
          · exact Or.inr (List.mem_cons_of_mem _ h)
        · rintro (⟨h1, h2⟩ | h)
          · exact Or.inl ⟨h1, by omega⟩
          · rcases List.mem_cons.1 h with rfl | h
            · exact Or.inl ⟨by omega, by omega⟩
            · exact Or.inr h
      · rename_i hx
        have hx2 := ih x x hchain hml' hmx (le_refl x)
        simp only [List.mem_cons]
        constructor
        · rintro ⟨r, hr, h1, h2⟩
          rcases hr with rfl | hr
          · exact Or.inl ⟨h1, h2⟩
          · rcases hx2.1 ⟨r, hr, h1, h2⟩ with ⟨ha, hb⟩ | h
            · exact Or.inr (Or.inl (le_antisymm hb ha))
            · exact Or.inr (Or.inr h)
        · rintro (⟨h1, h2⟩ | h | h)
          · exact ⟨(s, e), Or.inl rfl, h1, h2⟩
          · obtain ⟨r, hr, h1, h2⟩ := hx2.2 (Or.inl ⟨le_of_eq h.symm, le_of_eq h⟩)
            exact ⟨r, Or.inr hr, h1, h2⟩
          · obtain ⟨r, hr, h1, h2⟩ := hx2.2 (Or.inr h)
            exact ⟨r, Or.inr hr, h1, h2⟩

/-- On a strictly increasing day list of day multiples, `compressGo` emits runs
separated by at least two days, each with start ≤ end. -/
theorem compressGo_good (l : List Int) (s e : Int)
    (hchain : List.Chain (· < ·) e l)
    (hml : ∀ x ∈ l, (86400 : Int) ∣ x) (hme : (86400 : Int) ∣ e) (hse : s ≤ e) :
    List.Chain' (fun a b : Int × Int => a.2 + 2 * 86400 ≤ b.1) (compressGo s e l) ∧
    ∀ r ∈ compressGo s e l, r.1 ≤ r.2 := by
  induction l generalizing s e with
  | nil =>
      refine ⟨List.chain'_singleton _, ?_⟩
      intro r hr
      rw [compressGo, List.mem_singleton] at hr
      subst hr
      exact hse
  | cons x l ih =>
      rw [List.chain_cons] at hchain
      obtain ⟨hex, hchain⟩ := hchain
      have hmx : (86400 : Int) ∣ x := hml x (List.mem_cons_self x l)
      have hml' : ∀ y ∈ l, (86400 : Int) ∣ y := fun y hy => hml y (List.mem_cons_of_mem x hy)
      rw [compressGo]
      split
      · rename_i hx
        exact ih s x hchain hml' hmx (by omega)
      · rename_i hx
        have hgap : e + 2 * 86400 ≤ x := by omega
        obtain ⟨hc, hb⟩ := ih x x hchain hml' hmx (le_refl x)
        obtain ⟨t, rest, heq, ht⟩ := compressGo_shape l x x
        constructor
        · rw [heq] at hc ⊢
          exact List.Chain'.cons hgap hc
        · intro r hr
          rcases List.mem_cons.1 hr with rfl | hr
          · exact hse
          · exact hb r hr

/-- Every later run of a two-day-separated chain is two days after the head. -/
theorem gapChain_head_le {a : Int × Int} {runs : List (Int × Int)}
    (hc : List.Chain' (fun a b : Int × Int => a.2 + 2 * 86400 ≤ b.1) (a :: runs))
    (hb : ∀ r ∈ a :: runs, r.1 ≤ r.2) :
    ∀ b ∈ runs, a.2 + 2 * 86400 ≤ b.1 := by
  induction runs generalizing a with
  | nil => intro b hb2; cases hb2
  | cons c l ih =>
      rw [List.chain'_cons] at hc
      obtain ⟨hac, hc⟩ := hc
      intro b hbm
      rcases List.mem_cons.1 hbm with rfl | hbm
      · exact hac
      · have hcb := ih hc (fun r hr => hb r (List.mem_cons_of_mem a hr)) b hbm
        have hcc : c.1 ≤ c.2 := hb c (List.mem_cons_of_mem a (List.mem_cons_self c l))
        omega

/-- A two-day-separated chain of well-formed runs is pairwise separated. -/
theorem gapChain_pairwise {runs : List (Int × Int)}
    (hc : List.Chain' (fun a b : Int × Int => a.2 + 2 * 86400 ≤ b.1) runs)
    (hb : ∀ r ∈ runs, r.1 ≤ r.2) :
    List.Pairwise (fun a b : Int × Int => a.2 + 2 * 86400 ≤ b.1) runs := by
  induction runs with
  | nil => exact List.Pairwise.nil
  | cons a l ih =>
      refine List.Pairwise.cons (gapChain_head_le hc hb) ?_
      exact ih (List.Chain'.tail hc) (fun r hr => hb r (List.mem_cons_of_mem a hr))

/-- Consuming a consecutive-day block extends the current run's end. -/
theorem compressGo_dayList (t : Int) (l : List Int) (s e : Int)
    (het : e ≤ t) (hd : (86400 : Int) ∣ t - e) :
    compressGo s e (dayList (e + 86400) t ++ l) = compressGo s t l := by
  obtain ⟨c, hc⟩ := hd
  have hc0 : 0 ≤ c := by omega
  lift c to ℕ using hc0 with m
  induction m generalizing e with
  | zero =>
      have he : e = t := by push_cast at hc; omega
      subst he
      have hnil : dayList (e + 86400) e = [] := by
        rw [dayList, dayCount, if_neg (by omega)]
        rfl
      rw [hnil, List.nil_append]
  | succ m ih =>
      have h1 : e + 86400 ≤ t := by push_cast at hc; omega
      rw [dayList_eq_cons h1, List.cons_append, compressGo, if_pos rfl]
      have hc' : t - (e + 86400) = 86400 * (m : Int) := by push_cast at hc ⊢; omega
      exact ih (e + 86400) h1 hc' hc'

theorem mem_explode {runs : List (Int × Int)} {x : Int} :
    x ∈ explode runs ↔ ∃ r ∈ runs, x ∈ dayList r.1 r.2 := by
  rw [explode, List.mem_flatMap]

/-- The exploded day list of a canonical run list is strictly increasing. -/
theorem explode_sorted {runs : List (Int × Int)}
    (hc : List.Chain' (fun a b : Int × Int => a.2 + 2 * 86400 ≤ b.1) runs)
    (hb : ∀ r ∈ runs, r.1 ≤ r.2) :
    List.Sorted (· < ·) (explode runs) := by
  induction runs with
  | nil => exact List.sorted_nil
  | cons a l ih =>
      rw [explode, List.flatMap_cons, ← explode]
      rw [List.Sorted, List.pairwise_append]
      refine ⟨dayList_sorted _ _, ih (List.Chain'.tail hc)
        (fun r hr => hb r (List.mem_cons_of_mem a hr)), ?_⟩
      intro x hx y hy
      have hx2 : x ≤ a.2 := (mem_dayList.1 hx).2.1
      obtain ⟨r, hr, hyr⟩ := mem_explode.1 hy
      have hy1 : r.1 ≤ y := (mem_dayList.1 hyr).1
      have := gapChain_head_le hc hb r hr
      omega

/-- Re-compressing the exploded day list of a canonical run list restores it. -/
theorem compressGo_explode (runs : List (Int × Int)) (s e : Int)
    (hc : List.Chain' (fun a b : Int × Int => a.2 + 2 * 86400 ≤ b.1) ((s, e) :: runs))
    (hb : ∀ r ∈ (s, e) :: runs, r.1 ≤ r.2 ∧ (86400 : Int) ∣ r.1 ∧ (86400 : Int) ∣ r.2) :
    compressGo s s (dayList (s + 86400) e ++ explode runs) = (s, e) :: runs := by
  induction runs generalizing s e with
  | nil =>
      obtain ⟨hse, hds, hde⟩ := hb (s, e) (List.mem_cons_self _ _)
      have := compressGo_dayList e [] s s hse (by omega)
      rw [explode, List.flatMap_nil, this]
      rfl
  | cons r2 l ih =>
      obtain ⟨s2, e2⟩ := r2
      obtain ⟨hse, hds, hde⟩ := hb (s, e) (List.mem_cons_self _ _)
      obtain ⟨hse2, hds2, hde2⟩ := hb (s2, e2) (List.mem_cons_of_mem _ (List.mem_cons_self _ _))
      rw [List.chain'_cons] at hc
      obtain ⟨hgap, hc⟩ := hc
      rw [explode, List.flatMap_cons, ← explode, dayList_eq_cons hse2]
      rw [show dayList (s + 86400) e ++ (s2 :: dayList (s2 + 86400) e2 ++ explode l)
          = dayList (s + 86400) e ++ (s2 :: (dayList (s2 + 86400) e2 ++ explode l)) by simp]
      rw [compressGo_dayList e _ s s hse (by omega), compressGo,
        if_neg (by simp at hgap ⊢; omega)]
      congr 1
      exact ih s2 e2 hc (fun r hr => hb r (List.mem_cons_of_mem _ hr))

/-! ### Facts about the sorted combined day vector -/

theorem contains_date_iff {x : RoasTrieEntry} {d : Int} :
    contains_date x d = true ↔
      d ∈ x.dates ∨ ∃ r ∈ x.dates_compressed, r.1 ≤ d ∧ d ≤ r.2 := by
  simp [contains_date, List.any_eq_true]

theorem sortedDays_perm (x : RoasTrieEntry) :
    List.Perm (sortedDays x) (x.dates ++ explode x.dates_compressed) :=
  List.perm_insertionSort _ _

theorem sortedDays_sorted (x : RoasTrieEntry) : List.Sorted (· ≤ ·) (sortedDays x) :=
  List.sorted_insertionSort _ _

theorem mem_sortedDays {x : RoasTrieEntry} {z : Int} :
    z ∈ sortedDays x ↔ z ∈ x.dates ∨ ∃ r ∈ x.dates_compressed, z ∈ dayList r.1 r.2 := by
  rw [(sortedDays_perm x).mem_iff, List.mem_append, mem_explode]

theorem sortedDays_ne_nil {x : RoasTrieEntry}
    (hne : x.dates ≠ [] ∨ ∃ r ∈ x.dates_compressed, r.1 ≤ r.2) :
    sortedDays x ≠ [] := by
  intro hnil
  have hperm := sortedDays_perm x
  rw [hnil] at hperm
  have hbase := hperm.symm.eq_nil
  rw [List.append_eq_nil] at hbase
  rcases hne with hne | ⟨r, hr, hrle⟩
  · exact hne hbase.1
  · have : r.1 ∈ explode x.dates_compressed :=
      mem_explode.2 ⟨r, hr, mem_dayList.2 ⟨le_refl r.1, hrle, ⟨0, by ring⟩⟩⟩
    rw [hbase.2] at this
    cases this

theorem sortedDays_dvd {x : RoasTrieEntry}
    (hdl : ∀ a ∈ x.dates, (86400 : Int) ∣ a)
    (hdr : ∀ r ∈ x.dates_compressed, (86400 : Int) ∣ r.1 ∧ (86400 : Int) ∣ r.2) :
    ∀ z ∈ sortedDays x, (86400 : Int) ∣ z := by
  intro z hz
  rcases mem_sortedDays.1 hz with hz | ⟨r, hr, hzr⟩
  · exact hdl z hz
  · obtain ⟨_, _, hdiff⟩ := mem_dayList.1 hzr
    obtain ⟨h1, _⟩ := hdr r hr
    omega

/-- Two-day-separated chains with well-formed runs have strictly increasing
run starts. -/
theorem gapChain_pairwise_lt {runs : List (Int × Int)}
    (hc : List.Chain' (fun a b : Int × Int => a.2 + 2 * 86400 ≤ b.1) runs)
    (hb : ∀ r ∈ runs, r.1 ≤ r.2) :
    List.Pairwise (fun a b : Int × Int => a.1 < b.1) runs := by
  induction runs with
  | nil => exact List.Pairwise.nil
  | cons a l ih =>
      refine List.pairwise_cons.2 ⟨?_, ?_⟩
      · intro b hbm
        have hgap := gapChain_head_le hc hb b hbm
        have ha := hb a (List.mem_cons_self a l)
        omega
      · exact ih (List.Chain'.tail hc) (fun r hr => hb r (List.mem_cons_of_mem a hr))

/-- C3: for every entry with a non-empty logical date set whose stored
timestamps are day multiples, `full_compress` succeeds and `contains_date d`
returns the same value before and after it, for every day-multiple `d`. -/
theorem full_compress_contains_date_invariant
    (x : RoasTrieEntry)
    (hdl : ∀ a ∈ x.dates, (86400 : Int) ∣ a)
    (hdr : ∀ r ∈ x.dates_compressed, (86400 : Int) ∣ r.1 ∧ (86400 : Int) ∣ r.2)
    (hne : x.dates ≠ [] ∨ ∃ r ∈ x.dates_compressed, r.1 ≤ r.2) :
    ∃ y, full_compress x = some y ∧
      ∀ d : Int, (86400 : Int) ∣ d → contains_date y d = contains_date x d := by
  rcases hd : sortedDays x with _ | ⟨d0, rest⟩
  · exact absurd hd (sortedDays_ne_nil hne)
  refine ⟨_, by rw [full_compress, hd], ?_⟩
  intro d hdd
  rw [Bool.eq_iff_iff, contains_date_iff, contains_date_iff]
  simp only [List.not_mem_nil, false_or]
  have hsorted : List.Sorted (· ≤ ·) (d0 :: rest) := hd ▸ sortedDays_sorted x
  have hchain : List.Chain (· ≤ ·) d0 rest := hsorted.chain'
  have hdvdall : ∀ z ∈ d0 :: rest, (86400 : Int) ∣ z := by
    intro z hz
    exact sortedDays_dvd hdl hdr z (hd ▸ hz)
  have hml : ∀ z ∈ rest, (86400 : Int) ∣ z :=
    fun z hz => hdvdall z (List.mem_cons_of_mem d0 hz)
  have hmd0 : (86400 : Int) ∣ d0 := hdvdall d0 (List.mem_cons_self d0 rest)
  rw [compressGo_span rest d0 d0 d hchain hml hmd0 hdd (le_refl d0)]
  have hmem : (d = d0 ∨ d ∈ rest) ↔
      (d ∈ x.dates ∨ ∃ r ∈ x.dates_compressed, d ∈ dayList r.1 r.2) := by
    rw [← List.mem_cons, ← hd, mem_sortedDays]
  constructor
  · rintro (⟨h1, h2⟩ | h)
    · rcases hmem.1 (Or.inl (le_antisymm h2 h1)) with h | ⟨r, hr, hdr2⟩
      · exact Or.inl h
      · obtain ⟨ha, hb, _⟩ := mem_dayList.1 hdr2
        exact Or.inr ⟨r, hr, ha, hb⟩
    · rcases hmem.1 (Or.inr h) with h2 | ⟨r, hr, hdr2⟩
      · exact Or.inl h2
      · obtain ⟨ha, hb, _⟩ := mem_dayList.1 hdr2
        exact Or.inr ⟨r, hr, ha, hb⟩
  · rintro (h | ⟨r, hr, ha, hb⟩)
    · rcases hmem.2 (Or.inl h) with h2 | h2
      · exact Or.inl ⟨le_of_eq h2.symm, le_of_eq h2⟩
      · exact Or.inr h2
    · have hdif : (86400 : Int) ∣ d - r.1 := by
        obtain ⟨h1, _⟩ := hdr r hr
        omega
      rcases hmem.2 (Or.inr ⟨r, hr, mem_dayList.2 ⟨ha, hb, hdif⟩⟩) with h2 | h2
      · exact Or.inl ⟨le_of_eq h2.symm, le_of_eq h2⟩
      · exact Or.inr h2

/-- C2 (amended): if the entry's timestamps are all day multiples, no day is
represented twice (loose set disjoint from the runs' days and runs pairwise
disjoint), and the logical date set is non-empty, then `full_compress`
succeeds, empties the loose set, and leaves runs that are strictly sorted by
start, non-overlapping and non-adjacent (consecutive starts at least two days
apart). -/
theorem full_compress_canonical
    (x : RoasTrieEntry)
    (hdl : ∀ a ∈ x.dates, (86400 : Int) ∣ a)
    (hdr : ∀ r ∈ x.dates_compressed, (86400 : Int) ∣ r.1 ∧ (86400 : Int) ∣ r.2)
    (hnodup : (x.dates ++ explode x.dates_compressed).Nodup)
    (hne : x.dates ≠ [] ∨ ∃ r ∈ x.dates_compressed, r.1 ≤ r.2) :
    ∃ y, full_compress x = some y ∧ y.dates = [] ∧
      List.Chain' (fun a b : Int × Int => a.2 + 2 * 86400 ≤ b.1) y.dates_compressed ∧
      List.Pairwise (fun a b : Int × Int => a.1 < b.1) y.dates_compressed := by
  rcases hd : sortedDays x with _ | ⟨d0, rest⟩
  · exact absurd hd (sortedDays_ne_nil hne)
  refine ⟨_, by rw [full_compress, hd], rfl, ?_⟩
  have hsorted : List.Sorted (· ≤ ·) (d0 :: rest) := hd ▸ sortedDays_sorted x
  have hnd : (d0 :: rest).Nodup := by
    rw [← hd]
    exact ((sortedDays_perm x).nodup_iff).2 hnodup
  have hslt : List.Sorted (· < ·) (d0 :: rest) := hsorted.lt_of_le hnd
  have hchain : List.Chain (· < ·) d0 rest := hslt.chain'
  have hdvdall : ∀ z ∈ d0 :: rest, (86400 : Int) ∣ z := by
    intro z hz
    exact sortedDays_dvd hdl hdr z (hd ▸ hz)
  have hml : ∀ z ∈ rest, (86400 : Int) ∣ z :=
    fun z hz => hdvdall z (List.mem_cons_of_mem d0 hz)
  have hmd0 : (86400 : Int) ∣ d0 := hdvdall d0 (List.mem_cons_self d0 rest)
  obtain ⟨hc, hb⟩ := compressGo_good rest d0 d0 hchain hml hmd0 (le_refl d0)
  exact ⟨hc, gapChain_pairwise_lt hc hb⟩

/-- C2, counterexample to the claim as stated: the entry created by
`new(86400, 24, 13335, bootstrap = false)` followed by
`push_date(86400, bootstrap = true)` is reachable at the public interface
(its loose set is `{86400}`, its run list `[(86400, 86400)]`), yet
`full_compress` leaves the duplicated day as two identical runs, which are
neither strictly sorted by start nor two days apart. -/
theorem full_compress_canonical_cex :
    (full_compress (push_date (RoasTrieEntry.new 86400 24 13335 false) 86400 true)).map
        (fun y => y.dates_compressed) = some [(86400, 86400), (86400, 86400)] ∧
    ¬ List.Pairwise (fun a b : Int × Int => a.1 < b.1) [(86400, 86400), (86400, 86400)] ∧
    ¬ List.Chain' (fun a b : Int × Int => a.2 + 2 * 86400 ≤ b.1)
        [(86400, 86400), (86400, 86400)] := by
  refine ⟨by decide, by decide, ?_⟩
  rw [List.chain'_pair]
  decide

/-- C2, witness: the amended compression invariant at a concrete entry with
loose day 4 and the run `[day 1, day 2]`. -/
theorem full_compress_canonical_witness :
    ∃ y, full_compress ⟨24, 13335, [345600], [(86400, 172800)]⟩ = some y ∧ y.dates = [] ∧
      List.Chain' (fun a b : Int × Int => a.2 + 2 * 86400 ≤ b.1) y.dates_compressed ∧
      List.Pairwise (fun a b : Int × Int => a.1 < b.1) y.dates_compressed :=
  full_compress_canonical _ (by decide) (by decide) (by decide) (by decide)

/-- C3, witness: `contains_date` is unchanged by `full_compress` on a concrete
entry with loose day 1 and the run `[day 3, day 3]`. -/
theorem full_compress_contains_date_invariant_witness :
    ∃ y, full_compress ⟨24, 13335, [86400], [(259200, 259200)]⟩ = some y ∧
      ∀ d : Int, (86400 : Int) ∣ d →
        contains_date y d = contains_date ⟨24, 13335, [86400], [(259200, 259200)]⟩ d :=
  full_compress_contains_date_invariant _ (by decide) (by decide) (by decide)

/-- C5: in incremental mode, on an entry whose timestamps are day multiples
and for a day-multiple `day_ts`, `push_date` initializes `[(d, d)]` on an
empty run list; otherwise, with `(s, e)` the last run, it extends the run to
`(s, d)` when `d = e + 86400`, appends `(d, d)` when `d > e + 86400`, and
leaves the entry unchanged when `d ≤ e`; these cases are exhaustive. -/
theorem push_date_false_last {x : RoasTrieEntry} {s e : Int}
    (h : x.dates_compressed.getLast? = some (s, e)) (d : Int) :
    push_date x d false =
      if d = e + 86400 then
        { x with dates_compressed := x.dates_compressed.dropLast ++ [(s, d)] }
      else if e + 86400 < d then
        { x with dates_compressed := x.dates_compressed ++ [(d, d)] }
      else x := by
  rw [push_date, h]

theorem push_date_incremental_cases
    (x : RoasTrieEntry) (d : Int)
    (hdr : ∀ r ∈ x.dates_compressed, (86400 : Int) ∣ r.1 ∧ (86400 : Int) ∣ r.2)
    (hdd : (86400 : Int) ∣ d) :
    (x.dates_compressed = [] →
      push_date x d false = { x with dates_compressed := [(d, d)] }) ∧
    ∀ init s e, x.dates_compressed = init ++ [(s, e)] →
      (d = e + 86400 ∨ e + 86400 < d ∨ d ≤ e) ∧
      (d = e + 86400 →
        push_date x d false = { x with dates_compressed := init ++ [(s, d)] }) ∧
      (e + 86400 < d →
        push_date x d false = { x with dates_compressed := x.dates_compressed ++ [(d, d)] }) ∧
      (d ≤ e → push_date x d false = x) := by
  constructor
  · intro hnil
    rw [push_date, hnil]
    rfl
  · intro init s e hlast
    have hmem : (s, e) ∈ x.dates_compressed := by
      rw [hlast]
      exact List.mem_append_right init (List.mem_singleton.2 rfl)
    have hde : (86400 : Int) ∣ e := (hdr (s, e) hmem).2
    have hlast' : x.dates_compressed.getLast? = some (s, e) := by
      rw [hlast]
      exact List.getLast?_concat _
    have hpd := push_date_false_last hlast' d
    refine ⟨by omega, ?_, ?_, ?_⟩
    · intro hcase
      rw [hpd, if_pos hcase, hlast, List.dropLast_concat]
    · intro hcase
      rw [hpd, if_neg (by omega), if_pos hcase]
    · intro hcase
      rw [hpd, if_neg (by omega), if_neg (by omega)]

/-- C5, witness: extending the tail run `[day 1, day 2]` with day 3. -/
theorem push_date_incremental_cases_witness :
    push_date ⟨24, 13335, [], [(86400, 172800)]⟩ 259200 false
      = { max_len := 24, origin := 13335, dates := [],
          dates_compressed := [(86400, 259200)] } := by
  have h := (push_date_incremental_cases ⟨24, 13335, [], [(86400, 172800)]⟩ 259200
    (by decide) (by decide)).2 [] 86400 172800 rfl
  exact h.2.1 (by decide)

/-! ### Validation -/

theorem validateLoop_spec (o plen : Nat) (d : Int) (maps : List EntryMap)
    (acc : RpkiValidation) :
    validateLoop o plen d acc maps =
      if ∃ m ∈ maps, ∃ kv ∈ m,
          kv.2.origin = o ∧ plen ≤ kv.2.max_len ∧ contains_date kv.2 d = true
      then RpkiValidation.Valid
      else if maps = [] then acc else RpkiValidation.Invalid := by
  induction maps generalizing acc with
  | nil => simp [validateLoop]
  | cons m rest ih =>
      by_cases hm : ∃ kv ∈ m,
          kv.2.origin = o ∧ plen ≤ kv.2.max_len ∧ contains_date kv.2 d = true
      · have hany : (m.any fun kv =>
            kv.2.origin == o && decide (plen ≤ kv.2.max_len) && contains_date kv.2 d) = true := by
          simp only [List.any_eq_true, Bool.and_eq_true, beq_iff_eq, decide_eq_true_eq]
          obtain ⟨kv, hkv, h1, h2, h3⟩ := hm
          exact ⟨kv, hkv, ⟨h1, h2⟩, h3⟩
        have hc : ∃ m2 ∈ m :: rest, ∃ kv ∈ m2,
            kv.2.origin = o ∧ plen ≤ kv.2.max_len ∧ contains_date kv.2 d = true :=
          ⟨m, List.mem_cons_self m rest, hm⟩
        rw [validateLoop, hany, if_pos rfl, if_pos hc]
      · have hany : (m.any fun kv =>
            kv.2.origin == o && decide (plen ≤ kv.2.max_len) && contains_date kv.2 d) = false := by
          simp only [List.any_eq_false, Bool.and_eq_true, beq_iff_eq, decide_eq_true_eq, not_and]
          intro kv hkv hpair h3
          exact hm ⟨kv, hkv, hpair.1, hpair.2, h3⟩
        rw [validateLoop, hany, if_neg (by simp), ih RpkiValidation.Invalid]
        by_cases hrest : ∃ m2 ∈ rest, ∃ kv ∈ m2,
            kv.2.origin = o ∧ plen ≤ kv.2.max_len ∧ contains_date kv.2 d = true
        · have hc : ∃ m2 ∈ m :: rest, ∃ kv ∈ m2,
              kv.2.origin = o ∧ plen ≤ kv.2.max_len ∧ contains_date kv.2 d = true := by
            obtain ⟨m2, hm2, h⟩ := hrest
            exact ⟨m2, List.mem_cons_of_mem m hm2, h⟩
          rw [if_pos hrest, if_pos hc]
        · have hc : ¬ ∃ m2 ∈ m :: rest, ∃ kv ∈ m2,
              kv.2.origin = o ∧ plen ≤ kv.2.max_len ∧ contains_date kv.2 d = true := by
            rintro ⟨m2, hm2, h⟩
            rcases List.mem_cons.1 hm2 with rfl | hm2
            · exact hm h
            · exact hrest ⟨m2, hm2, h⟩
          rw [if_neg hrest, ite_self, if_neg hc, if_neg (List.cons_ne_nil m rest)]

/-- C1: `validate(p, o, d)` is `Valid` iff some stored entry at a prefix equal
to or a supernet of `p` has origin `o`, `max_len ≥ p.prefix_len` and a logical
date set containing `d`; it is `Unknown` iff no stored prefix is equal to or a
supernet of `p`; otherwise it is `Invalid`. -/
theorem validate_trichotomy (t : RoasTrie) (p : IpNet) (o : Nat) (d : Int) :
    (t.validate p o d = RpkiValidation.Valid ↔
      ∃ qm ∈ t.trie, covers qm.1 p = true ∧ ∃ kv ∈ qm.2,
        kv.2.origin = o ∧ p.bits.length ≤ kv.2.max_len ∧ contains_date kv.2 d = true) ∧
    (t.validate p o d = RpkiValidation.Unknown ↔
      ∀ qm ∈ t.trie, covers qm.1 p = false) ∧
    (t.validate p o d = RpkiValidation.Invalid ↔
      (∃ qm ∈ t.trie, covers qm.1 p = true) ∧
      ¬ ∃ qm ∈ t.trie, covers qm.1 p = true ∧ ∃ kv ∈ qm.2,
        kv.2.origin = o ∧ p.bits.length ≤ kv.2.max_len ∧ contains_date kv.2 d = true) := by
  rw [RoasTrie.validate, validateLoop_spec]
  have hex : (∃ m ∈ (matchesList t.trie p).map (fun qm => qm.2), ∃ kv ∈ m,
        kv.2.origin = o ∧ p.bits.length ≤ kv.2.max_len ∧ contains_date kv.2 d = true) ↔
      (∃ qm ∈ t.trie, covers qm.1 p = true ∧ ∃ kv ∈ qm.2,
        kv.2.origin = o ∧ p.bits.length ≤ kv.2.max_len ∧ contains_date kv.2 d = true) := by
    constructor
    · rintro ⟨m, hmem, h⟩
      obtain ⟨qm, hqm, rfl⟩ := List.mem_map.1 hmem
      obtain ⟨hq, hcov⟩ := List.mem_filter.1 hqm
      exact ⟨qm, hq, hcov, h⟩
    · rintro ⟨qm, hq, hcov, h⟩
      exact ⟨qm.2, List.mem_map.2 ⟨qm, List.mem_filter.2 ⟨hq, hcov⟩, rfl⟩, h⟩
  have hnil : ((matchesList t.trie p).map (fun qm => qm.2) = [] ↔
      ∀ qm ∈ t.trie, covers qm.1 p = false) := by
    rw [List.map_eq_nil_iff, matchesList, List.filter_eq_nil_iff]
    constructor
    · intro h qm hqm
      have := h qm hqm
      simpa using this
    · intro h qm hqm
      simp [h qm hqm]
  by_cases hvalid : ∃ qm ∈ t.trie, covers qm.1 p = true ∧ ∃ kv ∈ qm.2,
      kv.2.origin = o ∧ p.bits.length ≤ kv.2.max_len ∧ contains_date kv.2 d = true
  · rw [if_pos (hex.2 hvalid)]
    refine ⟨⟨fun _ => hvalid, fun _ => rfl⟩, ?_, ?_⟩
    · constructor
      · intro h
        cases h
      · intro hall
        obtain ⟨qm, hq, hcov, _⟩ := hvalid
        rw [hall qm hq] at hcov
        cases hcov
    · constructor
      · intro h
        cases h
      · rintro ⟨_, hno⟩
        exact absurd hvalid hno
  · rw [if_neg (fun h => hvalid (hex.1 h))]
    by_cases hempty : (matchesList t.trie p).map (fun qm => qm.2) = []
    · rw [if_pos hempty]
      refine ⟨?_, ?_, ?_⟩
      · constructor
        · intro h
          cases h
        · intro h
          exact absurd h hvalid
      · exact ⟨fun _ => hnil.1 hempty, fun _ => rfl⟩
      · constructor
        · intro h
          cases h
        · rintro ⟨⟨qm, hq, hcov⟩, _⟩
          rw [hnil.1 hempty qm hq] at hcov
          cases hcov
    · rw [if_neg hempty]
      refine ⟨?_, ?_, ?_⟩
      · constructor
        · intro h
          cases h
        · intro h
          exact absurd h hvalid
      · constructor
        · intro h
          cases h
        · intro hall
          exact absurd (hnil.2 hall) hempty
      · refine ⟨fun _ => ⟨?_, hvalid⟩, fun _ => rfl⟩
        by_contra hnone
        push_neg at hnone
        refine hempty (hnil.2 ?_)
        intro qm hq
        have := hnone qm hq
        cases hcv : covers qm.1 p
        · rfl
        · exact absurd hcv this

/-! ### Ingest idempotence -/

theorem hsInsert_idem (l : List Int) (d : Int) :
    hsInsert (hsInsert l d) d = hsInsert l d := by
  unfold hsInsert
  by_cases h : d ∈ l
  · rw [if_pos h, if_pos h]
  · rw [if_neg h, if_pos (List.mem_append_right l (List.mem_singleton.2 rfl))]

theorem push_date_idem (x : RoasTrieEntry) (d : Int) (b : Bool) :
    push_date (push_date x d b) d b = push_date x d b := by
  cases b
  · rcases hl : x.dates_compressed.getLast? with _ | ⟨s, e⟩
    · have hnil : x.dates_compressed = [] := List.getLast?_eq_none_iff.1 hl
      have hv : push_date x d false =
          { x with dates_compressed := x.dates_compressed ++ [(d, d)] } := by
        rw [push_date, hl]
      rw [hv]
      have h2 : (({ x with dates_compressed := x.dates_compressed ++ [(d, d)] } :
          RoasTrieEntry).dates_compressed).getLast? = some (d, d) := List.getLast?_concat _
      rw [push_date_false_last h2, if_neg (by omega), if_neg (by omega)]
    · rw [push_date_false_last hl]
      by_cases h1 : d = e + 86400
      · rw [if_pos h1]
        have h2 : (({ x with dates_compressed := x.dates_compressed.dropLast ++ [(s, d)] } :
            RoasTrieEntry).dates_compressed).getLast? = some (s, d) := List.getLast?_concat _
        rw [push_date_false_last h2, if_neg (by omega), if_neg (by omega)]
      · by_cases h2 : e + 86400 < d
        · rw [if_neg h1, if_pos h2]
          have h3 : (({ x with dates_compressed := x.dates_compressed ++ [(d, d)] } :
              RoasTrieEntry).dates_compressed).getLast? = some (d, d) := List.getLast?_concat _
          rw [push_date_false_last h3, if_neg (by omega), if_neg (by omega)]
        · rw [if_neg h1, if_neg h2, push_date_false_last hl, if_neg h1, if_neg h2]
  · show { x with dates := hsInsert (hsInsert x.dates d) d } =
      { x with dates := hsInsert x.dates d }
    rw [hsInsert_idem]

theorem new_max_len (d : Int) (ml o : Nat) (b : Bool) :
    (RoasTrieEntry.new d ml o b).max_len = ml := by
  cases b <;> rfl

theorem new_origin (d : Int) (ml o : Nat) (b : Bool) :
    (RoasTrieEntry.new d ml o b).origin = o := by
  cases b <;> rfl

theorem push_date_new (d : Int) (ml o : Nat) (b : Bool) :
    push_date (RoasTrieEntry.new d ml o b) d b = RoasTrieEntry.new d ml o b := by
  cases b
  · have h : ((RoasTrieEntry.new d ml o false).dates_compressed).getLast? = some (d, d) := rfl
    rw [push_date_false_last h, if_neg (by omega), if_neg (by omega)]
  · show { RoasTrieEntry.new d ml o true with dates := hsInsert [d] d } =
      RoasTrieEntry.new d ml o true
    rw [show hsInsert [d] d = [d] from if_pos (List.mem_singleton.2 rfl)]
    rfl

theorem updateEntryMap_twice (k : Nat × Nat) (f : RoasTrieEntry → RoasTrieEntry)
    (mk : RoasTrieEntry) (hf : f mk = mk) (hff : ∀ e, f (f e) = f e) (m : EntryMap) :
    updateEntryMap k f mk (updateEntryMap k f mk m) = updateEntryMap k f mk m := by
  induction m with
  | nil =>
      show updateEntryMap k f mk [(k, mk)] = [(k, mk)]
      rw [updateEntryMap, if_pos rfl, hf]
  | cons kv rest ih =>
      rw [updateEntryMap]
      by_cases h : kv.1 = k
      · rw [if_pos h, updateEntryMap, if_pos h, hff]
      · rw [if_neg h, updateEntryMap, if_neg h, ih]

theorem updateTrie_twice (p : IpNet) (f : EntryMap → EntryMap) (mk : EntryMap)
    (hf : f mk = mk) (hff : ∀ m, f (f m) = f m) (t : List (IpNet × EntryMap)) :
    updateTrie p f mk (updateTrie p f mk t) = updateTrie p f mk t := by
  induction t with
  | nil =>
      show updateTrie p f mk [(p, mk)] = [(p, mk)]
      rw [updateTrie, if_pos rfl, hf]
  | cons qm rest ih =>
      rw [updateTrie]
      by_cases h : qm.1 = p
      · rw [if_pos h, updateTrie, if_pos h, hff]
      · rw [if_neg h, updateTrie, if_neg h, ih]

/-- C4: applying the same ROA record twice through `process_entries` leaves
the trie and `latest_date` exactly as applying it once, in bulk mode and in
incremental mode alike (the same record's repeated date is trivially
monotonic). -/
theorem process_entries_idempotent (t : RoasTrie) (r : RoaEntry) (b : Bool) :
    process_entries t [r, r] b = process_entries t [r] b := by
  show processEntry (processEntry t r b) r b = processEntry t r b
  rw [processEntry, processEntry]
  have hfE : ∀ m : EntryMap,
      updateEntryMap (r.max_len, r.asn) (fun e => push_date e (86400 * r.date) b)
        (RoasTrieEntry.new (86400 * r.date) r.max_len r.asn b)
        (updateEntryMap (r.max_len, r.asn) (fun e => push_date e (86400 * r.date) b)
          (RoasTrieEntry.new (86400 * r.date) r.max_len r.asn b) m) =
      updateEntryMap (r.max_len, r.asn) (fun e => push_date e (86400 * r.date) b)
        (RoasTrieEntry.new (86400 * r.date) r.max_len r.asn b) m :=
    updateEntryMap_twice _ _ _ (push_date_new _ _ _ _)
      (fun e => push_date_idem e _ b)
  have hfT : updateTrie r.net
      (fun m => updateEntryMap (r.max_len, r.asn) (fun e => push_date e (86400 * r.date) b)
        (RoasTrieEntry.new (86400 * r.date) r.max_len r.asn b) m)
      (convert_to_hash_map (RoasTrieEntry.new (86400 * r.date) r.max_len r.asn b))
      (updateTrie r.net
        (fun m => updateEntryMap (r.max_len, r.asn) (fun e => push_date e (86400 * r.date) b)
          (RoasTrieEntry.new (86400 * r.date) r.max_len r.asn b) m)
        (convert_to_hash_map (RoasTrieEntry.new (86400 * r.date) r.max_len r.asn b)) t.trie) =
      updateTrie r.net
        (fun m => updateEntryMap (r.max_len, r.asn) (fun e => push_date e (86400 * r.date) b)
          (RoasTrieEntry.new (86400 * r.date) r.max_len r.asn b) m)
        (convert_to_hash_map (RoasTrieEntry.new (86400 * r.date) r.max_len r.asn b)) t.trie := by
    refine updateTrie_twice _ _ _ ?_ hfE t.trie
    rw [convert_to_hash_map, new_max_len, new_origin, updateEntryMap, if_pos rfl,
      push_date_new]
  simp only [hfT]
  congr 1
  by_cases h : t.latest_date < 86400 * r.date
  · rw [if_pos h, if_neg (by omega)]
  · rw [if_neg h, if_neg h]

/-! ### Search currency semantics -/

theorem searchCond_iff (o? m? : Option Nat) (dT : Option Int) (oe : Bool)
    (latest : Int) (e : RoasTrieEntry) :
    ((match o? with | some o => e.origin == o | none => true)
      && (match m? with | some m => e.max_len == m | none => true)
      && (match dT with
          | some dt => !(e.dates_compressed.all fun r => decide (dt < r.1) || decide (r.2 < dt))
          | none => true)
      && !(oe && e.dates_compressed.any fun r => decide (latest ≤ r.2))) = true ↔
    ((match o? with | some o => e.origin = o | none => True) ∧
     (match m? with | some m => e.max_len = m | none => True) ∧
     (match dT with
      | some dt => ∃ r ∈ e.dates_compressed, r.1 ≤ dt ∧ dt ≤ r.2
      | none => True) ∧
     (oe = true → ¬ ∃ r ∈ e.dates_compressed, latest ≤ r.2)) := by
  rcases o? with _ | o <;> rcases m? with _ | m <;> rcases dT with _ | dt <;> cases oe <;>
    simp [List.all_eq_true, List.any_eq_true, List.any_eq_false, not_or, not_lt,
      List.all_eq_false, Bool.or_eq_false_iff, decide_eq_false_iff_not, not_and,
      and_assoc]

theorem mem_searchCore {t : RoasTrie} {p? : Option IpNet} {o? m? : Option Nat}
    {oe : Bool} {dT : Option Int} {x : RoasLookupEntry} :
    x ∈ searchCore t p? o? m? oe dT ↔
      ∃ qm ∈ searchIter t p?, ∃ kv ∈ qm.2,
        ((match o? with | some o => kv.2.origin = o | none => True) ∧
         (match m? with | some m => kv.2.max_len = m | none => True) ∧
         (match dT with
          | some dt => ∃ r ∈ kv.2.dates_compressed, r.1 ≤ dt ∧ dt ≤ r.2
          | none => True) ∧
         (oe = true → ¬ ∃ r ∈ kv.2.dates_compressed, t.latest_date ≤ r.2)) ∧
        x = mkLookup qm.1 kv.2 := by
  rw [searchCore, List.mem_flatMap]
  constructor
  · rintro ⟨qm, hqm, hx⟩
    rw [List.mem_filterMap] at hx
    obtain ⟨kv, hkv, heq⟩ := hx
    split at heq
    · rename_i hc
      exact ⟨qm, hqm, kv, hkv, (searchCond_iff o? m? dT oe t.latest_date kv.2).1 hc,
        (Option.some.inj heq).symm⟩
    · cases heq
  · rintro ⟨qm, hqm, kv, hkv, hcond, hval⟩
    refine ⟨qm, hqm, ?_⟩
    rw [List.mem_filterMap]
    refine ⟨kv, hkv, ?_⟩
    rw [if_pos ((searchCond_iff o? m? dT oe t.latest_date kv.2).2 hcond), hval]

/-- C7: with `current = Some(false)` the explicit `date` argument is ignored
and exactly those entries passing the prefix/origin/max_len filters with no
run ending at or after `latest_date` are returned; with `current = Some(true)`
the search behaves as if `date = latest_date` had been passed explicitly. -/
theorem search_current_semantics (t : RoasTrie) (p? : Option IpNet)
    (o? m? : Option Nat) (d? d2? : Option Int) :
    (t.search p? o? m? d? (some false) = t.search p? o? m? d2? (some false)) ∧
    (∀ x, x ∈ t.search p? o? m? d? (some false) ↔
      ∃ qm ∈ searchIter t p?, ∃ kv ∈ qm.2,
        (match o? with | some o => kv.2.origin = o | none => True) ∧
        (match m? with | some m => kv.2.max_len = m | none => True) ∧
        (¬ ∃ r ∈ kv.2.dates_compressed, t.latest_date ≤ r.2) ∧
        x = mkLookup qm.1 kv.2) ∧
    ((86400 : Int) ∣ t.latest_date →
      t.search p? o? m? d? (some true) =
        t.search p? o? m? (some (t.latest_date.ediv 86400)) none) := by
  refine ⟨rfl, ?_, ?_⟩
  · intro x
    show x ∈ searchCore t p? o? m? true none ↔ _
    rw [mem_searchCore]
    constructor
    · rintro ⟨qm, hqm, kv, hkv, ⟨ho, hm, _, hcur⟩, hval⟩
      exact ⟨qm, hqm, kv, hkv, ho, hm, hcur rfl, hval⟩
    · rintro ⟨qm, hqm, kv, hkv, ho, hm, hcur, hval⟩
      exact ⟨qm, hqm, kv, hkv, ⟨ho, hm, trivial, fun _ => hcur⟩, hval⟩
  · intro hdvd
    show searchCore t p? o? m? false (some t.latest_date) =
      searchCore t p? o? m? false ((some (t.latest_date.ediv 86400)).map (fun d => 86400 * d))
    have hcan : (86400 : Int) * t.latest_date.ediv 86400 = t.latest_date :=
      Int.mul_ediv_cancel' hdvd
    rw [show Option.map (fun d => 86400 * d) (some (t.latest_date.ediv 86400))
        = some (86400 * t.latest_date.ediv 86400) from rfl,
      hcan]

/-- C7, witness: on a trie with `latest_date = 86400`, `current = Some(true)`
coincides with the explicit date query for day 1. -/
theorem search_current_semantics_witness :
    RoasTrie.search ⟨[], 86400⟩ none none none none (some true) =
      RoasTrie.search ⟨[], 86400⟩ none none none (some ((86400 : Int).ediv 86400)) none :=
  (search_current_semantics ⟨[], 86400⟩ none none none none none).2.2 (by decide)

/-! ### The known-gaps table -/

/-- Modelled from the spec: the bit-exact Known Gaps Table of spec §6
("Known Gaps Table (bit-exact)"), 24 closed date intervals with single dates
written as one-day intervals. -/
def specKnownGapsTable : List (String × String) :=
  [ ("2018-12-28", "2019-01-02"),
    ("2019-10-22", "2019-10-22"),
    ("2019-11-24", "2019-11-24"),
    ("2020-08-03", "2020-08-03"),
    ("2021-01-04", "2021-01-04"),
    ("2021-07-15", "2021-07-15"),
    ("2021-07-19", "2021-07-19"),
    ("2021-07-23", "2021-07-23"),
    ("2021-07-31", "2021-07-31"),
    ("2021-08-10", "2021-08-10"),
    ("2021-09-03", "2021-09-03"),
    ("2021-09-06", "2021-09-07"),
    ("2021-09-10", "2021-09-25"),
    ("2021-09-27", "2021-09-28"),
    ("2022-01-03", "2022-01-03"),
    ("2022-01-15", "2022-01-15"),
    ("2022-01-19", "2022-01-19"),
    ("2022-01-24", "2022-01-24"),
    ("2022-02-02", "2022-02-02"),
    ("2022-02-04", "2022-02-04"),
    ("2022-02-13", "2022-02-13"),
    ("2022-02-16", "2022-02-16"),
    ("2023-06-24", "2023-06-24"),
    ("2023-07-14", "2023-07-17") ]

/-- C8, counterexample: the code's table has 25 entries, not 24, because the
interval `2023-06-24..2023-06-24` appears twice, so it is not bit-exact equal
to the spec's table and no interval-appears-exactly-once reading holds. -/
theorem known_gaps_table_cex :
    KNOWN_GAPS_STR.length = 25 ∧ specKnownGapsTable.length = 24 ∧
    KNOWN_GAPS_STR.count ("2023-06-24", "2023-06-24") = 2 ∧
    KNOWN_GAPS_STR ≠ specKnownGapsTable := by
  refine ⟨rfl, rfl, by decide, by decide⟩

/-- C8 (amended): the code's table is the spec's 24 intervals in order,
followed by one duplicated copy of `2023-06-24..2023-06-24`; up to that
duplicate it holds exactly the spec's intervals. -/
theorem known_gaps_table_amended :
    KNOWN_GAPS_STR = specKnownGapsTable ++ [("2023-06-24", "2023-06-24")] ∧
    List.Perm KNOWN_GAPS_STR.dedup specKnownGapsTable ∧
    specKnownGapsTable.Nodup := by
  refine ⟨rfl, by decide, by decide⟩

/-! ### Dump trace -/

/-- C9, counterexample: the dump trace for the default path contains no
rename at all, so it is not an atomic write-temp-then-rename. -/
theorem dump_not_atomic_cex :
    ¬ atomicTempRename (dumpTrace ⟨[], 0⟩ "roas_trie.bin.gz") "roas_trie.bin.gz" := by
  rintro ⟨tmp, hne, hopen, hren, hnot⟩
  simp [dumpTrace] at hren

/-- C9 (amended): `dump` opens a writer directly on the target path and
streams the serialized trie into it; no temporary file and no rename are
involved, so a failure mid-write can leave a partial file at the target. -/
theorem dump_direct_write (t : RoasTrie) (path : String) :
    dumpTrace t path = [FsOp.openWriter path, FsOp.writeTrie t.trie] ∧
    ∀ a b, FsOp.rename a b ∉ dumpTrace t path := by
  refine ⟨rfl, ?_⟩
  intro a b hmem
  simp [dumpTrace] at hmem

/-! ### Totality of the gap-fill pass -/

theorem fillGapEntry_none {gs ge : Int} {e : RoasTrieEntry}
    (h : e.dates_compressed = []) : fillGapEntry gs ge e = none := by
  rw [fillGapEntry, if_pos (by rw [h]; rfl)]

theorem goMap_none {gs ge : Int} {m : EntryMap}
    (h : ∃ kv ∈ m, kv.2.dates_compressed = []) :
    fillGapsOnce.goMap gs ge m = none := by
  induction m with
  | nil =>
      obtain ⟨kv, hkv, _⟩ := h
      cases hkv
  | cons kv rest ih =>
      rw [fillGapsOnce.goMap]
      obtain ⟨kv2, hkv2, hempty⟩ := h
      rcases List.mem_cons.1 hkv2 with rfl | hkv2
      · rw [fillGapEntry_none hempty]
      · rw [ih ⟨kv2, hkv2, hempty⟩]
        rcases fillGapEntry gs ge kv.2 with _ | e' <;> rfl

theorem fillGapsOnce_none {gs ge : Int} {tr : List (IpNet × EntryMap)}
    (h : ∃ qm ∈ tr, ∃ kv ∈ qm.2, kv.2.dates_compressed = []) :
    fillGapsOnce gs ge tr = none := by
  induction tr with
  | nil =>
      obtain ⟨qm, hqm, _⟩ := h
      cases hqm
  | cons qm rest ih =>
      rw [fillGapsOnce]
      obtain ⟨qm2, hqm2, hbad⟩ := h
      rcases List.mem_cons.1 hqm2 with rfl | hqm2
      · rw [goMap_none hbad]
      · rw [ih ⟨qm2, hqm2, hbad⟩]
        rcases fillGapsOnce.goMap gs ge qm.2 with _ | m' <;> rfl

theorem mem_hsInsert {l : List Int} {d a : Int} :
    a ∈ hsInsert l d ↔ a ∈ l ∨ a = d := by
  unfold hsInsert
  split
  · rename_i hdl
    constructor
    · exact Or.inl
    · rintro (h | rfl)
      · exact h
      · exact hdl
  · rw [List.mem_append, List.mem_singleton]

theorem mem_hsExtend {l ds : List Int} {a : Int} :
    a ∈ hsExtend l ds ↔ a ∈ l ∨ a ∈ ds := by
  induction ds generalizing l with
  | nil => simp [hsExtend]
  | cons d rest ih =>
      rw [hsExtend, List.foldl_cons, ← hsExtend, ih, mem_hsInsert, List.mem_cons]
      tauto

theorem fillGapEntry_isSome {gs ge : Int} {e : RoasTrieEntry}
    (h : e.dates_compressed ≠ []) (hg : gs ≤ ge) :
    ∃ e', fillGapEntry gs ge e = some e' ∧ e'.dates_compressed ≠ [] := by
  rw [fillGapEntry, if_neg (by simpa using h)]
  split
  · have hmem : gs ∈ hsExtend e.dates (dayList gs ge) :=
      mem_hsExtend.2 (Or.inr (mem_dayList.2 ⟨le_refl gs, hg, ⟨0, by ring⟩⟩))
    have hne : ({ e with dates := hsExtend e.dates (dayList gs ge) } :
        RoasTrieEntry).dates ≠ [] := by
      intro hnil
      have hnil' : hsExtend e.dates (dayList gs ge) = [] := hnil
      rw [hnil'] at hmem
      cases hmem
    rcases hd : sortedDays { e with dates := hsExtend e.dates (dayList gs ge) } with
      _ | ⟨d0, rest⟩
    · exact absurd hd (sortedDays_ne_nil (Or.inl hne))
    · refine ⟨_, by rw [full_compress, hd], ?_⟩
      obtain ⟨t, rest2, heq, _⟩ := compressGo_shape rest d0 d0
      intro hnil
      rw [heq] at hnil
      cases hnil
  · exact ⟨e, rfl, h⟩

theorem goMap_isSome {gs ge : Int} {m : EntryMap}
    (hall : ∀ kv ∈ m, kv.2.dates_compressed ≠ []) (hg : gs ≤ ge) :
    ∃ m', fillGapsOnce.goMap gs ge m = some m' ∧
      ∀ kv ∈ m', kv.2.dates_compressed ≠ [] := by
  induction m with
  | nil => exact ⟨[], rfl, by simp⟩
  | cons kv rest ih =>
      obtain ⟨e', he', hne'⟩ :=
        fillGapEntry_isSome (hall kv (List.mem_cons_self kv rest)) hg
      obtain ⟨m', hm', hall'⟩ := ih (fun kv2 h2 => hall kv2 (List.mem_cons_of_mem kv h2))
      refine ⟨(kv.1, e') :: m', ?_, ?_⟩
      · rw [fillGapsOnce.goMap, he', hm']
      · intro kv2 h2
        rcases List.mem_cons.1 h2 with rfl | h2
        · exact hne'
        · exact hall' kv2 h2

theorem fillGapsOnce_isSome {gs ge : Int} {tr : List (IpNet × EntryMap)}
    (hall : ∀ qm ∈ tr, ∀ kv ∈ qm.2, kv.2.dates_compressed ≠ []) (hg : gs ≤ ge) :
    ∃ tr', fillGapsOnce gs ge tr = some tr' ∧
      ∀ qm ∈ tr', ∀ kv ∈ qm.2, kv.2.dates_compressed ≠ [] := by
  induction tr with
  | nil => exact ⟨[], rfl, by simp⟩
  | cons qm rest ih =>
      obtain ⟨m', hm', hallm⟩ :=
        goMap_isSome (hall qm (List.mem_cons_self qm rest)) hg
      obtain ⟨tr', htr', hall'⟩ := ih (fun qm2 h2 => hall qm2 (List.mem_cons_of_mem qm h2))
      refine ⟨(qm.1, m') :: tr', ?_, ?_⟩
      · rw [fillGapsOnce, hm', htr']
      · intro qm2 h2
        rcases List.mem_cons.1 h2 with rfl | h2
        · exact hallm
        · exact hall' qm2 h2

theorem applyGaps_isSome {gaps : List (Int × Int)} {tr : List (IpNet × EntryMap)}
    (hgaps : ∀ g ∈ gaps, g.1 ≤ g.2)
    (hall : ∀ qm ∈ tr, ∀ kv ∈ qm.2, kv.2.dates_compressed ≠ []) :
    ∃ tr', applyGaps gaps tr = some tr' := by
  induction gaps generalizing tr with
  | nil => exact ⟨tr, rfl⟩
  | cons g rest ih =>
      obtain ⟨tr', htr', hall'⟩ :=
        fillGapsOnce_isSome hall (hgaps g (List.mem_cons_self g rest))
      obtain ⟨tr'', h''⟩ := ih (fun g2 h2 => hgaps g2 (List.mem_cons_of_mem g h2)) hall'
      refine ⟨tr'', ?_⟩
      rw [applyGaps, htr']
      exact h''

/-- C10: `fill_gaps` returns only when every entry's run list is non-empty:
any trie containing an entry with an empty `dates_compressed` (the state
bootstrap-mode entry creation produces before compression) makes the
`0 .. len - 1` scan panic (`none`), and when every entry has a non-empty run
list the pass completes. -/
theorem fill_gaps_total_iff_runs_nonempty (t : RoasTrie) :
    ((∃ qm ∈ t.trie, ∃ kv ∈ qm.2, kv.2.dates_compressed = []) →
      t.fill_gaps = none) ∧
    ((∀ qm ∈ t.trie, ∀ kv ∈ qm.2, kv.2.dates_compressed ≠ []) →
      ∃ t', t.fill_gaps = some t') := by
  constructor
  · intro h
    rw [RoasTrie.fill_gaps, KNOWN_GAPS_STR, List.map_cons, applyGaps,
      fillGapsOnce_none h]
    rfl
  · intro hall
    have hgaps : ∀ g ∈ KNOWN_GAPS_STR.map
        (fun g => (dateStrToTs g.1, dateStrToTs g.2)), g.1 ≤ g.2 := by decide
    obtain ⟨tr', htr'⟩ := applyGaps_isSome hgaps hall
    refine ⟨{ t with trie := tr' }, ?_⟩
    rw [RoasTrie.fill_gaps, htr']
    rfl

/-- C10, witness: a one-entry trie whose entry has loose day 1 and no runs
(exactly `new(86400, 24, 13335, bootstrap = true)`) makes `fill_gaps` panic. -/
theorem fill_gaps_total_iff_runs_nonempty_witness :
    RoasTrie.fill_gaps
      ⟨[(⟨[true]⟩, [((24, 13335), RoasTrieEntry.new 86400 24 13335 true)])], 86400⟩
      = none :=
  (fill_gaps_total_iff_runs_nonempty _).1
    ⟨_, List.mem_cons_self _ _, _, List.mem_cons_self _ _, rfl⟩

/-! ### Gap-fill merge semantics -/

theorem zip_tail_adjacent {α : Type} (pre post : List α) (a b : α) :
    (a, b) ∈ ((pre ++ a :: b :: post).zip (pre ++ a :: b :: post).tail) := by
  induction pre with
  | nil =>
      show (a, b) ∈ (a :: b :: post).zip (b :: post)
      rw [List.zip_cons_cons]
      exact List.mem_cons_self _ _
  | cons p pre ih =>
      rw [List.cons_append]
      rcases hrest : pre ++ a :: b :: post with _ | ⟨r0, rest'⟩
      · exact absurd hrest (by simp)
      · show (a, b) ∈ (p :: r0 :: rest').zip (r0 :: rest')
        rw [List.zip_cons_cons]
        refine List.mem_cons_of_mem _ ?_
        have := ih
        rw [hrest] at this
        exact this

theorem hsExtend_append {l ds : List Int} (hnd : ds.Nodup)
    (hdis : ∀ a ∈ ds, a ∉ l) : hsExtend l ds = l ++ ds := by
  induction ds generalizing l with
  | nil => simp [hsExtend]
  | cons d rest ih =>
      rw [hsExtend, List.foldl_cons, ← hsExtend]
      have hd : hsInsert l d = l ++ [d] :=
        if_neg (hdis d (List.mem_cons_self d rest))
      obtain ⟨hdr, hndr⟩ := List.nodup_cons.1 hnd
      rw [hd, ih hndr ?_, List.append_assoc, List.singleton_append]
      intro a ha
      rw [List.mem_append, List.mem_singleton]
      rintro (h | rfl)
      · exact hdis a (List.mem_cons_of_mem d ha) h
      · exact hdr ha

theorem perm_swap_head {α : Type} (A X Y : List α) :
    List.Perm (A ++ (X ++ Y)) (X ++ (A ++ Y)) := by
  have h := List.Perm.append_right Y (@List.perm_append_comm _ A X)
  simpa [List.append_assoc] using h

theorem compress_explode_full {runs : List (Int × Int)}
    (hc : List.Chain' (fun a b : Int × Int => a.2 + 2 * 86400 ≤ b.1) runs)
    (hb : ∀ r ∈ runs, r.1 ≤ r.2 ∧ (86400 : Int) ∣ r.1 ∧ (86400 : Int) ∣ r.2)
    (hne : runs ≠ []) :
    ∃ d0 rest, explode runs = d0 :: rest ∧ compressGo d0 d0 rest = runs := by
  rcases runs with _ | ⟨⟨s, e⟩, rest⟩
  · exact absurd rfl hne
  obtain ⟨hse, _, _⟩ := hb (s, e) (List.mem_cons_self _ _)
  refine ⟨s, dayList (s + 86400) e ++ explode rest, ?_, ?_⟩
  · rw [explode, List.flatMap_cons, ← explode, dayList_eq_cons hse, List.cons_append]
  · exact compressGo_explode rest s e hc hb

/-- C6: for a gap interval of day multiples, an entry whose canonical run list
contains two adjacent runs `(s1, e1)` and `(s2, e2)` with
`e1 = gap_start - 86400` and `s2 = gap_end + 86400` has the gap injected and
recompressed so that the two runs merge into `(s1, e2)`; an entry with no
such straddling pair of runs is left entirely unchanged. -/
theorem fill_gaps_merges_straddling_runs (gs ge : Int) (x : RoasTrieEntry)
    (hgs : (86400 : Int) ∣ gs) (hge : (86400 : Int) ∣ ge) (hg : gs ≤ ge) :
    ((x.dates_compressed ≠ [] ∧ straddlesGap x.dates_compressed gs ge = false) →
      fillGapEntry gs ge x = some x) ∧
    (∀ pre post s1 e1 s2 e2,
      x.dates = [] →
      (∀ r ∈ x.dates_compressed,
        r.1 ≤ r.2 ∧ (86400 : Int) ∣ r.1 ∧ (86400 : Int) ∣ r.2) →
      List.Chain' (fun a b : Int × Int => a.2 + 2 * 86400 ≤ b.1) x.dates_compressed →
      x.dates_compressed = pre ++ (s1, e1) :: (s2, e2) :: post →
      e1 = gs - 86400 → s2 = ge + 86400 →
      fillGapEntry gs ge x =
        some { x with dates := [], dates_compressed := pre ++ (s1, e2) :: post }) := by
  constructor
  · rintro ⟨hne, hstr⟩
    rw [fillGapEntry, if_neg (by simpa using hne), if_neg (by simp [hstr])]
  · intro pre post s1 e1 s2 e2 hdnil hb hc hruns he1 hs2
    have hm1 : (s1, e1) ∈ x.dates_compressed := by
      rw [hruns]
      exact List.mem_append_right _ (List.mem_cons_self _ _)
    have hm2 : (s2, e2) ∈ x.dates_compressed := by
      rw [hruns]
      exact List.mem_append_right _ (List.mem_cons_of_mem _ (List.mem_cons_self _ _))
    obtain ⟨hse1, hds1, hde1⟩ := hb (s1, e1) hm1
    obtain ⟨hse2, hds2, hde2⟩ := hb (s2, e2) hm2
    have hne : x.dates_compressed ≠ [] := by
      rw [hruns]
      simp
    have hstr : straddlesGap x.dates_compressed gs ge = true := by
      rw [straddlesGap, List.any_eq_true]
      refine ⟨((s1, e1), (s2, e2)), ?_, ?_⟩
      · rw [hruns]
        exact zip_tail_adjacent pre post (s1, e1) (s2, e2)
      · simp only [Bool.and_eq_true, beq_iff_eq]
        omega
    rw [fillGapEntry, if_neg (by simpa using hne), if_pos (by simp [hstr])]
    -- the loose set after the extend is exactly the gap's day list
    have hgap_nodup : (dayList gs ge).Nodup := (dayList_sorted gs ge).nodup
    have hdates : hsExtend x.dates (dayList gs ge) = dayList gs ge := by
      rw [hdnil, hsExtend_append hgap_nodup (by simp), List.nil_append]
    -- the merged run list and its canonicity
    set R : List (Int × Int) := pre ++ (s1, e2) :: post with hR
    have hcR : List.Chain' (fun a b : Int × Int => a.2 + 2 * 86400 ≤ b.1) R := by
      rw [hruns, List.chain'_append] at hc
      obtain ⟨hcpre, hcrest, hclink⟩ := hc
      rw [List.chain'_cons, List.chain'_cons'] at hcrest
      obtain ⟨hgap12, hhead, hcpost⟩ := hcrest
      rw [hR, List.chain'_append]
      refine ⟨hcpre, ?_, ?_⟩
      · rw [List.chain'_cons']
        exact ⟨fun y hy => by have := hhead y hy; omega, hcpost⟩
      · intro a ha y hy
        have := hclink a ha (s1, e1) (by rw [List.head?_cons, Option.mem_some_iff])
        rw [List.head?_cons, Option.mem_some_iff] at hy
        subst hy
        omega
    have hbR : ∀ r ∈ R, r.1 ≤ r.2 ∧ (86400 : Int) ∣ r.1 ∧ (86400 : Int) ∣ r.2 := by
      intro r hr
      rw [hR, List.mem_append, List.mem_cons] at hr
      rcases hr with hr | rfl | hr
      · exact hb r (by rw [hruns]; exact List.mem_append_left _ hr)
      · exact ⟨by omega, hds1, hde2⟩
      · refine hb r ?_
        rw [hruns]
        exact List.mem_append_right _ (List.mem_cons_of_mem _ (List.mem_cons_of_mem _ hr))
    -- splitting the merged run's day list at the gap boundaries
    have hsplit : dayList s1 e2 =
        dayList s1 e1 ++ (dayList gs ge ++ dayList s2 e2) := by
      have h1 : dayList s1 e2 = dayList s1 (gs - 86400) ++ dayList gs e2 :=
        dayList_split (by omega) (by omega) (by omega)
      have h2 : dayList gs e2 = dayList gs (s2 - 86400) ++ dayList s2 e2 :=
        dayList_split (by omega) (by omega) (by omega)
      rw [h1, h2, show gs - 86400 = e1 by omega, show s2 - 86400 = ge by omega]
    -- the two exploded day vectors, written in block form
    have hexp_runs : explode x.dates_compressed =
        explode pre ++ (dayList s1 e1 ++ (dayList s2 e2 ++ explode post)) := by
      rw [hruns, explode, List.flatMap_append, List.flatMap_cons, List.flatMap_cons,
        ← explode, ← explode]
    have hexp_R : explode R =
        explode pre ++ ((dayList s1 e1 ++ (dayList gs ge ++ dayList s2 e2))
          ++ explode post) := by
      rw [hR, explode, List.flatMap_append, List.flatMap_cons, ← explode, ← explode,
        hsplit]
    -- the gap days together with the old runs' days are the merged runs' days
    have hpermA : List.Perm
        (dayList gs ge ++ explode x.dates_compressed) (explode R) := by
      rw [hexp_runs, hexp_R]
      refine (perm_swap_head _ _ _).trans ?_
      refine List.Perm.append_left _ ?_
      refine (perm_swap_head _ _ _).trans ?_
      rw [show (dayList s1 e1 ++ (dayList gs ge ++ dayList s2 e2)) ++ explode post
          = dayList s1 e1 ++ (dayList gs ge ++ (dayList s2 e2 ++ explode post)) by
        simp only [List.append_assoc]]
    -- the sorted day vector is exactly the merged runs' exploded day vector
    have hRsortedlt : List.Sorted (· < ·) (explode R) :=
      explode_sorted hcR (fun r hr => (hbR r hr).1)
    have hRsorted : List.Sorted (· ≤ ·) (explode R) :=
      List.Pairwise.imp le_of_lt hRsortedlt
    have hsd : sortedDays { x with dates := hsExtend x.dates (dayList gs ge) }
        = explode R := by
      refine List.eq_of_perm_of_sorted ?_ (sortedDays_sorted _) hRsorted
      refine (sortedDays_perm _).trans ?_
      show List.Perm
        (hsExtend x.dates (dayList gs ge) ++ explode x.dates_compressed) (explode R)
      rw [hdates]
      exact hpermA
    obtain ⟨d0, rest, hex, hcomp⟩ :=
      compress_explode_full hcR hbR (by rw [hR]; simp)
    rw [full_compress, hsd, hex]
    show some { x with dates := [], dates_compressed := compressGo d0 d0 rest }
      = some { x with dates := [], dates_compressed := R }
    rw [hcomp]

/-- C6, witness: the spec's end-to-end scenario 3: runs for days
2022-01-01..2022-01-02 and 2022-01-04..2022-01-04 with gap
2022-01-03..2022-01-03 merge into one run 2022-01-01..2022-01-04. -/
theorem fill_gaps_merges_straddling_runs_witness :
    fillGapEntry 1641168000 1641168000
        ⟨24, 13335, [], [(1640995200, 1641081600), (1641254400, 1641254400)]⟩
      = some ⟨24, 13335, [], [(1640995200, 1641254400)]⟩ :=
  (fill_gaps_merges_straddling_runs 1641168000 1641168000
      ⟨24, 13335, [], [(1640995200, 1641081600), (1641254400, 1641254400)]⟩
      (by decide) (by decide) (by decide)).2
    [] [] 1640995200 1641081600 1641254400 1641254400 rfl (by decide)
    (by rw [List.chain'_pair]; decide) rfl (by decide) (by decide)

end WaybackRpki
